import Mathlib

/-!
Shallow embedding of the RC5 block-cipher repository (Rust).

Machine words of bit width `w = 8 * BYTES` are modelled as `Nat` values
reduced modulo `2 ^ w`.  Arrays that the Rust code indexes and updates in
place are modelled as total functions `Nat → Nat` updated pointwise; the
subkey table is read back as a `List Nat` of the proper length at the end.
Arithmetic follows Rust release semantics: `wrapping_add`, `wrapping_sub`,
`wrapping_shl`, and the masked rotations, exactly as written in
`src/rc5.rs`, `src/word.rs` (current revision) and `src/lib.rs`,
`src/unsigned.rs` (historical revision).
-/

namespace RC5

/-- Rust `enum Error` from `src/rc5.rs`. -/
inductive Error where
  | BadLength
  | ConversionError
deriving DecidableEq, Repr

/-- The data of the `Word` trait of `src/word.rs`: byte count of the width
and the per-width magic constants `P` and `Q`. -/
structure WordType where
  BYTES : Nat
  P : Nat
  Q : Nat
deriving DecidableEq, Repr

/-- `impl Word for u8` of `src/word.rs`. -/
def u8 : WordType := ⟨1, 0xB7, 0x9F⟩

/-- `impl Word for u16` of `src/word.rs`. -/
def u16 : WordType := ⟨2, 0xB7E1, 0x9E37⟩

/-- `impl Word for u32` of `src/word.rs`. -/
def u32 : WordType := ⟨4, 0xB7E15163, 0x9E3779B9⟩

/-- `impl Word for u64` of `src/word.rs`. -/
def u64 : WordType := ⟨8, 0xB7E151628AED2A6B, 0x9E3779B97F4A7C15⟩

/-- `impl Word for u128` of `src/word.rs`. -/
def u128 : WordType := ⟨16, 0xB7E151628AED2A6ABF7158809CF4F3C7,
  0x9E3779B97F4A7C15F39CC0605CEDC835⟩

/-- Word width in bits: `let w = W::BYTES * 8`. -/
def wbits (wt : WordType) : Nat := wt.BYTES * 8

/-- The modulus `2 ^ w` of the word type. -/
def M (wt : WordType) : Nat := 2 ^ wbits wt

/-- Rust `wrapping_add` on words. -/
def wadd (wt : WordType) (x y : Nat) : Nat := (x + y) % M wt

/-- Rust `wrapping_sub` on words (both operands reduced modulo `2 ^ w`). -/
def wsub (wt : WordType) (x y : Nat) : Nat := (x + (M wt - y % M wt)) % M wt

/-- Rust `wrapping_shl`: the shift amount is first reduced modulo the bit
width (the width is a power of two, so the Rust mask `s & (w - 1)` is
`s % w`), and the result is truncated to the word. -/
def wshl (wt : WordType) (x s : Nat) : Nat := (x <<< (s % wbits wt)) % M wt

/-- `rotl` from `src/rc5.rs`: the amount `a = y & (w - 1)` is the mask of the
amount with `w - 1`; `if a == 0 { x } else { (x << a) | (x >> (w - a)) }`,
the left shift truncating to the word width. -/
def rotl (wt : WordType) (x y : Nat) : Nat :=
  if y &&& (wbits wt - 1) = 0 then x
  else ((x <<< (y &&& (wbits wt - 1))) % M wt) |||
    (x >>> (wbits wt - (y &&& (wbits wt - 1))))

/-- `rotr` from `src/rc5.rs`:
`if a == 0 { x } else { (x >> a) | (x << (w - a)) }`. -/
def rotr (wt : WordType) (x y : Nat) : Nat :=
  if y &&& (wbits wt - 1) = 0 then x
  else (x >>> (y &&& (wbits wt - 1))) |||
    ((x <<< (wbits wt - (y &&& (wbits wt - 1)))) % M wt)

/-- Pointwise update of a function-modelled array: `f[i] = v`. -/
def updFn (f : Nat → Nat) (i v : Nat) : Nat → Nat :=
  fun k => if k = i then v else f k

/-- The key-packing loop of `expand_key` in `src/rc5.rs`
(`for i in (0..b).rev()`), processing byte indices `m-1, m-2, …, 0`:
`key_l[i / u] = key_l[i / u].wrapping_shl(8) + key[i]` (the byte is a `u8`,
hence the `% 256`). -/
def packLoop (wt : WordType) (key : List Nat) : Nat → (Nat → Nat) → (Nat → Nat)
  | 0, L => L
  | m + 1, L =>
      let ix := m / wt.BYTES
      packLoop wt key m (updFn L ix (wadd wt (wshl wt (L ix) 8) (key.getD m 0 % 256)))

/-- Subkey-table initialization of `expand_key`: `S[0] = P` and
`S[i] = S[i-1] + Q` (wrapping). -/
def sInit (wt : WordType) : Nat → Nat
  | 0 => wt.P
  | i + 1 => wadd wt (sInit wt i) wt.Q

/-- State of the key-mixing loop of `expand_key`: the two arrays and the
indices `i`, `j` and accumulators `a`, `b`. -/
structure MixState where
  S : Nat → Nat
  L : Nat → Nat
  i : Nat
  j : Nat
  a : Nat
  b : Nat

/-- One iteration of the key-mixing loop of `expand_key` in `src/rc5.rs`:
`S[i] = rotl(S[i] + (a + b), 3); a = S[i];
 L[j] = rotl(L[j] + (a + b), a + b); b = L[j];
 i = (i+1) % t; j = (j+1) % c`. -/
def mixStep (wt : WordType) (t c : Nat) (st : MixState) : MixState :=
  let s := rotl wt (wadd wt (st.S st.i) (wadd wt st.a st.b)) 3
  let S := updFn st.S st.i s
  let a := s
  let l := rotl wt (wadd wt (st.L st.j) (wadd wt a st.b)) (wadd wt a st.b)
  let L := updFn st.L st.j l
  let b := l
  ⟨S, L, (st.i + 1) % t, (st.j + 1) % c, a, b⟩

/-- `c = max(1, (8*b + w - 1) / w)` from `expand_key`. -/
def keyWords (wt : WordType) (b : Nat) : Nat :=
  max 1 ((8 * b + (wbits wt - 1)) / wbits wt)

/-- `expand_key` from `src/rc5.rs`: pack the key into `c` words, initialize
`S` from `P` and `Q`, run `3 * max(c, t)` mixing iterations, return `S`. -/
def expand_key (wt : WordType) (key : List Nat) (rounds : Nat) : List Nat :=
  let t := 2 * (rounds + 1)
  let b := key.length
  let c := keyWords wt b
  let keyL := packLoop wt key b (fun _ => 0)
  let st : MixState := ⟨sInit wt, keyL, 0, 0, 0, 0⟩
  let fin := (mixStep wt t c)^[3 * max c t] st
  (List.range t).map fin.S

/-- One iteration of the encryption loop of `encrypt` in `src/rc5.rs`:
`a = rotl(a ^ b, b) + S[2i]; b = rotl(b ^ a, a) + S[2i+1]`. -/
def encRound (wt : WordType) (S : List Nat) (ab : Nat × Nat) (i : Nat) : Nat × Nat :=
  let a := wadd wt (rotl wt (ab.1 ^^^ ab.2) ab.2) (S.getD (2 * i) 0)
  let b := wadd wt (rotl wt (ab.2 ^^^ a) a) (S.getD (2 * i + 1) 0)
  (a, b)

/-- One iteration of the decryption loop of `decrypt` in `src/rc5.rs`:
`b = rotr(b - S[2i+1], a) ^ a; a = rotr(a - S[2i], b) ^ b`. -/
def decRound (wt : WordType) (S : List Nat) (ab : Nat × Nat) (i : Nat) : Nat × Nat :=
  let b := rotr wt (wsub wt ab.2 (S.getD (2 * i + 1) 0)) ab.1 ^^^ ab.1
  let a := rotr wt (wsub wt ab.1 (S.getD (2 * i) 0)) b ^^^ b
  (a, b)

/-- `encrypt` from `src/rc5.rs`. -/
def encrypt (wt : WordType) (pt : Nat × Nat) (key : List Nat) (rounds : Nat) :
    Nat × Nat :=
  let S := expand_key wt key rounds
  let ab := (wadd wt pt.1 (S.getD 0 0), wadd wt pt.2 (S.getD 1 0))
  (List.range' 1 rounds).foldl (encRound wt S) ab

/-- `decrypt` from `src/rc5.rs`: the round loop runs `i = rounds, …, 1`. -/
def decrypt (wt : WordType) (ct : Nat × Nat) (key : List Nat) (rounds : Nat) :
    Nat × Nat :=
  let S := expand_key wt key rounds
  let ab := ((List.range' 1 rounds).reverse).foldl (decRound wt S) ct
  (wsub wt ab.1 (S.getD 0 0), wsub wt ab.2 (S.getD 1 0))

/-! ### Basic arithmetic lemmas about the word model -/

theorem M_pos (wt : WordType) : 0 < M wt := Nat.two_pow_pos _

theorem wadd_lt (wt : WordType) (x y : Nat) : wadd wt x y < M wt :=
  Nat.mod_lt _ (M_pos wt)

theorem wsub_lt (wt : WordType) (x y : Nat) : wsub wt x y < M wt :=
  Nat.mod_lt _ (M_pos wt)

theorem wsub_wadd (wt : WordType) {x : Nat} (s : Nat) (hx : x < M wt) :
    wsub wt (wadd wt x s) s = x := by
  unfold wsub wadd
  rw [Nat.mod_add_mod]
  have hdm := Nat.div_add_mod s (M wt)
  have hlt : s % M wt < M wt := Nat.mod_lt _ (M_pos wt)
  have hmul : M wt * (s / M wt + 1) = M wt * (s / M wt) + M wt := Nat.mul_succ _ _
  have h : x + s + (M wt - s % M wt) = x + M wt * (s / M wt + 1) := by omega
  rw [h, Nat.add_mul_mod_self_left]
  exact Nat.mod_eq_of_lt hx

theorem wadd_wsub (wt : WordType) {x : Nat} (s : Nat) (hx : x < M wt) :
    wadd wt (wsub wt x s) s = x := by
  unfold wsub wadd
  rw [Nat.mod_add_mod]
  have hdm := Nat.div_add_mod s (M wt)
  have hlt : s % M wt < M wt := Nat.mod_lt _ (M_pos wt)
  have hmul : M wt * (s / M wt + 1) = M wt * (s / M wt) + M wt := Nat.mul_succ _ _
  have h : x + (M wt - s % M wt) + s = x + M wt * (s / M wt + 1) := by omega
  rw [h, Nat.add_mul_mod_self_left]
  exact Nat.mod_eq_of_lt hx

/-! ### Rotation lemmas -/

/-- Arithmetic form of left rotation by `a` bit positions in a `w`-bit word. -/
def rotAux (w x a : Nat) : Nat := x % 2 ^ (w - a) * 2 ^ a + x / 2 ^ (w - a)

theorem rotAux_lt {w x : Nat} (a : Nat) (hx : x < 2 ^ w) (ha : a ≤ w) :
    rotAux w x a < 2 ^ w := by
  unfold rotAux
  have hsplit : 2 ^ (w - a) * 2 ^ a = 2 ^ w := by
    rw [← Nat.pow_add]; congr 1; omega
  have h1 : x % 2 ^ (w - a) < 2 ^ (w - a) := Nat.mod_lt _ (Nat.two_pow_pos _)
  have h2 : x / 2 ^ (w - a) < 2 ^ a := by
    apply Nat.div_lt_of_lt_mul; rw [hsplit]; exact hx
  calc x % 2 ^ (w - a) * 2 ^ a + x / 2 ^ (w - a)
      ≤ (2 ^ (w - a) - 1) * 2 ^ a + x / 2 ^ (w - a) := by
        apply Nat.add_le_add_right
        exact Nat.mul_le_mul_right _ (by omega)
    _ < (2 ^ (w - a) - 1) * 2 ^ a + 2 ^ a := by
        exact Nat.add_lt_add_left h2 _
    _ = 2 ^ (w - a) * 2 ^ a := by
        have : 0 < 2 ^ (w - a) := Nat.two_pow_pos _
        calc (2 ^ (w - a) - 1) * 2 ^ a + 2 ^ a
            = (2 ^ (w - a) - 1 + 1) * 2 ^ a := by rw [Nat.succ_mul]
          _ = 2 ^ (w - a) * 2 ^ a := by congr 1; omega
    _ = 2 ^ w := hsplit

theorem rotAux_def (w v b : Nat) :
    rotAux w v b = v % 2 ^ (w - b) * 2 ^ b + v / 2 ^ (w - b) := rfl

theorem rotAux_rotAux {w x a : Nat} (hx : x < 2 ^ w) (ha0 : 0 < a) (haw : a < w) :
    rotAux w (rotAux w x a) (w - a) = x := by
  have hww : w - (w - a) = a := by omega
  have hsplit : 2 ^ (w - a) * 2 ^ a = 2 ^ w := by
    rw [← Nat.pow_add]; congr 1; omega
  have hq : x / 2 ^ (w - a) < 2 ^ a := by
    apply Nat.div_lt_of_lt_mul; rw [hsplit]; exact hx
  have h1 : rotAux w x a % 2 ^ a = x / 2 ^ (w - a) := by
    rw [rotAux_def, Nat.mul_comm (x % 2 ^ (w - a)) (2 ^ a), Nat.mul_add_mod,
      Nat.mod_eq_of_lt hq]
  have h2 : rotAux w x a / 2 ^ a = x % 2 ^ (w - a) := by
    rw [rotAux_def, Nat.mul_comm (x % 2 ^ (w - a)) (2 ^ a),
      Nat.mul_add_div (Nat.two_pow_pos a), Nat.div_eq_of_lt hq, Nat.add_zero]
  rw [rotAux_def w (rotAux w x a) (w - a), hww, h1, h2,
    Nat.mul_comm (x / 2 ^ (w - a)) (2 ^ (w - a))]
  exact Nat.div_add_mod x (2 ^ (w - a))

/-- In the non-trivial branch the masked amount is below `w`. -/
theorem rot_amount_lt {wt : WordType} {y : Nat}
    (hne : y &&& (wbits wt - 1) ≠ 0) : y &&& (wbits wt - 1) < wbits wt := by
  have hle : y &&& (wbits wt - 1) ≤ wbits wt - 1 := Nat.and_le_right
  rcases Nat.eq_zero_or_pos (wbits wt) with hw | hw
  · exfalso; apply hne
    rw [hw]
    simp
  · omega

theorem rotl_eq_rotAux {wt : WordType} {x y : Nat} (hx : x < M wt)
    (hne : y &&& (wbits wt - 1) ≠ 0) :
    rotl wt x y = rotAux (wbits wt) x (y &&& (wbits wt - 1)) := by
  have haw : y &&& (wbits wt - 1) < wbits wt := rot_amount_lt hne
  unfold M at hx
  unfold rotl M
  rw [if_neg hne]
  generalize hA : y &&& (wbits wt - 1) = a at hne haw ⊢
  generalize hW : wbits wt = w at haw hx ⊢
  have hsplit : 2 ^ (w - a) * 2 ^ a = 2 ^ w := by
    rw [← Nat.pow_add]; congr 1; omega
  have hq : x / 2 ^ (w - a) < 2 ^ a := by
    apply Nat.div_lt_of_lt_mul; rw [hsplit]; exact hx
  rw [Nat.shiftLeft_eq, Nat.shiftRight_eq_div_pow, ← hsplit, Nat.mul_mod_mul_right,
    rotAux_def, Nat.mul_comm (x % 2 ^ (w - a)) (2 ^ a),
    ← Nat.mul_add_lt_is_or hq (x % 2 ^ (w - a))]

theorem rotr_eq_rotAux {wt : WordType} {x y : Nat} (hx : x < M wt)
    (hne : y &&& (wbits wt - 1) ≠ 0) :
    rotr wt x y = rotAux (wbits wt) x (wbits wt - (y &&& (wbits wt - 1))) := by
  have haw : y &&& (wbits wt - 1) < wbits wt := rot_amount_lt hne
  unfold M at hx
  unfold rotr M
  rw [if_neg hne]
  generalize hA : y &&& (wbits wt - 1) = a at hne haw ⊢
  generalize hW : wbits wt = w at haw hx ⊢
  have hww : w - (w - a) = a := by omega
  have hsplit : 2 ^ a * 2 ^ (w - a) = 2 ^ w := by
    rw [← Nat.pow_add]; congr 1; omega
  have hq : x / 2 ^ a < 2 ^ (w - a) := by
    apply Nat.div_lt_of_lt_mul; rw [hsplit]; exact hx
  rw [Nat.shiftLeft_eq, Nat.shiftRight_eq_div_pow, ← hsplit, Nat.mul_mod_mul_right,
    rotAux_def, hww, Nat.lor_comm, Nat.mul_comm (x % 2 ^ a) (2 ^ (w - a)),
    ← Nat.mul_add_lt_is_or hq (x % 2 ^ a)]

theorem rotl_lt (wt : WordType) {x : Nat} (y : Nat) (hx : x < M wt) :
    rotl wt x y < M wt := by
  by_cases hne : y &&& (wbits wt - 1) = 0
  · unfold rotl; rw [if_pos hne]; exact hx
  · rw [rotl_eq_rotAux hx hne]
    exact rotAux_lt _ hx (Nat.le_of_lt (rot_amount_lt hne))

theorem rotr_lt (wt : WordType) {x : Nat} (y : Nat) (hx : x < M wt) :
    rotr wt x y < M wt := by
  by_cases hne : y &&& (wbits wt - 1) = 0
  · unfold rotr; rw [if_pos hne]; exact hx
  · rw [rotr_eq_rotAux hx hne]
    exact rotAux_lt _ hx (by omega)

theorem rotr_rotl (wt : WordType) {x : Nat} (y : Nat) (hx : x < M wt) :
    rotr wt (rotl wt x y) y = x := by
  by_cases hne : y &&& (wbits wt - 1) = 0
  · unfold rotl rotr; rw [if_pos hne, if_pos hne]
  · have haw := rot_amount_lt hne
    have h1 := rotl_eq_rotAux hx hne
    have h2 : rotl wt x y < M wt := rotl_lt wt y hx
    rw [h1] at h2 ⊢
    rw [rotr_eq_rotAux h2 hne]
    exact rotAux_rotAux hx (Nat.pos_of_ne_zero hne) haw

theorem rotl_rotr (wt : WordType) {x : Nat} (y : Nat) (hx : x < M wt) :
    rotl wt (rotr wt x y) y = x := by
  by_cases hne : y &&& (wbits wt - 1) = 0
  · unfold rotl rotr; rw [if_pos hne, if_pos hne]
  · have haw := rot_amount_lt hne
    have h1 := rotr_eq_rotAux hx hne
    have h2 : rotr wt x y < M wt := rotr_lt wt y hx
    rw [h1] at h2 ⊢
    rw [rotl_eq_rotAux h2 hne]
    have h3 := rotAux_rotAux (a := wbits wt - (y &&& (wbits wt - 1))) hx
      (by omega) (by omega)
    rw [show wbits wt - (wbits wt - (y &&& (wbits wt - 1))) = y &&& (wbits wt - 1)
      by omega] at h3
    exact h3

theorem xor_lt (wt : WordType) {x y : Nat} (hx : x < M wt) (hy : y < M wt) :
    x ^^^ y < M wt := Nat.xor_lt_two_pow hx hy

/-! ### Round-trip of the round functions -/

theorem encRound_lt (wt : WordType) (S : List Nat) (ab : Nat × Nat) (i : Nat) :
    (encRound wt S ab i).1 < M wt ∧ (encRound wt S ab i).2 < M wt :=
  ⟨wadd_lt _ _ _, wadd_lt _ _ _⟩

theorem decRound_lt (wt : WordType) (S : List Nat) {ab : Nat × Nat} (i : Nat)
    (h1 : ab.1 < M wt) (h2 : ab.2 < M wt) :
    (decRound wt S ab i).1 < M wt ∧ (decRound wt S ab i).2 < M wt := by
  have hb : rotr wt (wsub wt ab.2 (S.getD (2 * i + 1) 0)) ab.1 ^^^ ab.1 < M wt :=
    xor_lt wt (rotr_lt wt _ (wsub_lt _ _ _)) h1
  exact ⟨xor_lt wt (rotr_lt wt _ (wsub_lt _ _ _)) hb, hb⟩

theorem decRound_encRound (wt : WordType) (S : List Nat) (i : Nat) {ab : Nat × Nat}
    (h1 : ab.1 < M wt) (h2 : ab.2 < M wt) :
    decRound wt S (encRound wt S ab i) i = ab := by
  obtain ⟨a, b⟩ := ab
  simp only [encRound, decRound]
  generalize hs0 : S.getD (2 * i) 0 = s0
  generalize hs1 : S.getD (2 * i + 1) 0 = s1
  generalize hA : wadd wt (rotl wt (a ^^^ b) b) s0 = A
  have hAlt : A < M wt := hA ▸ wadd_lt wt _ s0
  have hb2 : rotr wt (wsub wt (wadd wt (rotl wt (b ^^^ A) A) s1) s1) A ^^^ A = b := by
    rw [wsub_wadd wt s1 (rotl_lt wt A (xor_lt wt h2 hAlt)),
      rotr_rotl wt A (xor_lt wt h2 hAlt), Nat.xor_cancel_right]
  rw [hb2]
  have ha2 : rotr wt (wsub wt A s0) b ^^^ b = a := by
    rw [← hA, wsub_wadd wt s0 (rotl_lt wt b (xor_lt wt h1 h2)),
      rotr_rotl wt b (xor_lt wt h1 h2), Nat.xor_cancel_right]
  rw [ha2]

theorem encRound_decRound (wt : WordType) (S : List Nat) (i : Nat) {ab : Nat × Nat}
    (h1 : ab.1 < M wt) (h2 : ab.2 < M wt) :
    encRound wt S (decRound wt S ab i) i = ab := by
  obtain ⟨a, b⟩ := ab
  simp only [encRound, decRound]
  generalize hs0 : S.getD (2 * i) 0 = s0
  generalize hs1 : S.getD (2 * i + 1) 0 = s1
  generalize hB : rotr wt (wsub wt b s1) a ^^^ a = B2
  have ha2 : wadd wt (rotl wt ((rotr wt (wsub wt a s0) B2 ^^^ B2) ^^^ B2) B2) s0 = a := by
    rw [Nat.xor_cancel_right, rotl_rotr wt B2 (wsub_lt wt a s0), wadd_wsub wt s0 h1]
  rw [ha2]
  have hb2 : wadd wt (rotl wt (B2 ^^^ a) a) s1 = b := by
    rw [← hB, Nat.xor_cancel_right, rotl_rotr wt a (wsub_lt wt b s1),
      wadd_wsub wt s1 h2]
  rw [hb2]

/-! ### Round-trip of the round loops and of encrypt/decrypt -/

theorem encFold_lt (wt : WordType) (S : List Nat) (l : List Nat) :
    ∀ {ab : Nat × Nat}, ab.1 < M wt → ab.2 < M wt →
      (l.foldl (encRound wt S) ab).1 < M wt ∧ (l.foldl (encRound wt S) ab).2 < M wt := by
  induction l with
  | nil => exact fun h1 h2 => ⟨h1, h2⟩
  | cons x xs ih =>
      intro ab h1 h2
      rw [List.foldl_cons]
      exact ih (encRound_lt wt S ab x).1 (encRound_lt wt S ab x).2

theorem decFold_lt (wt : WordType) (S : List Nat) (l : List Nat) :
    ∀ {ab : Nat × Nat}, ab.1 < M wt → ab.2 < M wt →
      (l.foldl (decRound wt S) ab).1 < M wt ∧ (l.foldl (decRound wt S) ab).2 < M wt := by
  induction l with
  | nil => exact fun h1 h2 => ⟨h1, h2⟩
  | cons x xs ih =>
      intro ab h1 h2
      rw [List.foldl_cons]
      exact ih (decRound_lt wt S x h1 h2).1 (decRound_lt wt S x h1 h2).2

theorem decFold_encFold (wt : WordType) (S : List Nat) :
    ∀ (r : Nat) {ab : Nat × Nat}, ab.1 < M wt → ab.2 < M wt →
      ((List.range' 1 r).reverse).foldl (decRound wt S)
        ((List.range' 1 r).foldl (encRound wt S) ab) = ab := by
  intro r
  induction r with
  | zero => intro ab h1 h2; simp
  | succ n ih =>
      intro ab h1 h2
      rw [List.range'_1_concat]
      simp only [List.reverse_append, List.reverse_cons, List.reverse_nil,
        List.nil_append, List.foldl_append, List.foldl_cons, List.foldl_nil]
      rw [decRound_encRound wt S (1 + n)
        (encFold_lt wt S (List.range' 1 n) h1 h2).1
        (encFold_lt wt S (List.range' 1 n) h1 h2).2]
      exact ih h1 h2

theorem encFold_decFold (wt : WordType) (S : List Nat) :
    ∀ (r : Nat) {ab : Nat × Nat}, ab.1 < M wt → ab.2 < M wt →
      (List.range' 1 r).foldl (encRound wt S)
        (((List.range' 1 r).reverse).foldl (decRound wt S) ab) = ab := by
  intro r
  induction r with
  | zero => intro ab h1 h2; simp
  | succ n ih =>
      intro ab h1 h2
      rw [List.range'_1_concat]
      simp only [List.reverse_append, List.reverse_cons, List.reverse_nil,
        List.nil_append, List.foldl_append, List.foldl_cons, List.foldl_nil]
      rw [ih (decRound_lt wt S (1 + n) h1 h2).1 (decRound_lt wt S (1 + n) h1 h2).2]
      exact encRound_decRound wt S (1 + n) h1 h2

theorem decrypt_encrypt (wt : WordType) (key : List Nat) (r : Nat) {pt : Nat × Nat}
    (h1 : pt.1 < M wt) (h2 : pt.2 < M wt) :
    decrypt wt (encrypt wt pt key r) key r = pt := by
  obtain ⟨a, b⟩ := pt
  simp only [encrypt, decrypt]
  rw [decFold_encFold wt (expand_key wt key r) r (wadd_lt _ _ _) (wadd_lt _ _ _)]
  rw [wsub_wadd wt _ h1, wsub_wadd wt _ h2]

theorem encrypt_decrypt (wt : WordType) (key : List Nat) (r : Nat) {ct : Nat × Nat}
    (h1 : ct.1 < M wt) (h2 : ct.2 < M wt) :
    encrypt wt (decrypt wt ct key r) key r = ct := by
  obtain ⟨a, b⟩ := ct
  simp only [encrypt, decrypt]
  have hD := decFold_lt wt (expand_key wt key r) ((List.range' 1 r).reverse) h1 h2
  rw [wadd_wsub wt _ hD.1, wadd_wsub wt _ hD.2]
  exact encFold_decFold wt (expand_key wt key r) r h1 h2

theorem encrypt_lt (wt : WordType) (pt : Nat × Nat) (key : List Nat) (r : Nat) :
    (encrypt wt pt key r).1 < M wt ∧ (encrypt wt pt key r).2 < M wt := by
  simp only [encrypt]
  exact encFold_lt wt _ _ (wadd_lt _ _ _) (wadd_lt _ _ _)

theorem decrypt_lt (wt : WordType) (ct : Nat × Nat) (key : List Nat) (r : Nat) :
    (decrypt wt ct key r).1 < M wt ∧ (decrypt wt ct key r).2 < M wt := by
  simp only [decrypt]
  exact ⟨wsub_lt _ _ _, wsub_lt _ _ _⟩

/-- The `2w`-bit block space: pairs of words of the width. -/
def blockSpace (wt : WordType) : Set (Nat × Nat) :=
  {p | p.1 < M wt ∧ p.2 < M wt}

theorem encrypt_bijOn (wt : WordType) (key : List Nat) (r : Nat) :
    Set.BijOn (fun p => encrypt wt p key r) (blockSpace wt) (blockSpace wt) := by
  refine ⟨?_, ?_, ?_⟩
  · intro p _
    exact encrypt_lt wt p key r
  · intro p hp q hq heq
    have h := congrArg (fun z => decrypt wt z key r) heq
    simpa [decrypt_encrypt wt key r hp.1 hp.2, decrypt_encrypt wt key r hq.1 hq.2]
      using h
  · intro p hp
    exact ⟨decrypt wt p key r,
      ⟨(decrypt_lt wt p key r).1, (decrypt_lt wt p key r).2⟩,
      encrypt_decrypt wt key r hp.1 hp.2⟩

theorem expand_key_length (wt : WordType) (key : List Nat) (rounds : Nat) :
    (expand_key wt key rounds).length = 2 * (rounds + 1) := by
  simp only [expand_key]
  rw [List.length_map, List.length_range]

/-! ### Claim theorems -/

/-- Claim C1: for every supported word width, every key byte sequence, every
round count and all blocks, `decrypt (encrypt pt) = pt` and
`encrypt (decrypt ct) = ct`, so for a fixed `(key, r)` encrypt is a bijection
on the `2w`-bit block space exactly inverted by decrypt. -/
theorem c1_round_trip_bijection (wt : WordType)
    (hwt : wt = u8 ∨ wt = u16 ∨ wt = u32 ∨ wt = u64 ∨ wt = u128)
    (key : List Nat) (r : Nat) (pt ct : Nat × Nat)
    (hp1 : pt.1 < M wt) (hp2 : pt.2 < M wt)
    (hc1 : ct.1 < M wt) (hc2 : ct.2 < M wt) :
    decrypt wt (encrypt wt pt key r) key r = pt ∧
    encrypt wt (decrypt wt ct key r) key r = ct ∧
    Set.BijOn (fun p => encrypt wt p key r) (blockSpace wt) (blockSpace wt) :=
  ⟨decrypt_encrypt wt key r hp1 hp2, encrypt_decrypt wt key r hc1 hc2,
    encrypt_bijOn wt key r⟩

/-- Witness for C1 at `w = 8`, `key = [1, 2]`, `r = 2`, `pt = (3, 4)`,
`ct = (5, 6)`. -/
theorem c1_round_trip_bijection_witness :
    ((3 : Nat) < M u8 ∧ (4 : Nat) < M u8 ∧ (5 : Nat) < M u8 ∧ (6 : Nat) < M u8) ∧
    (decrypt u8 (encrypt u8 (3, 4) [1, 2] 2) [1, 2] 2 = (3, 4) ∧
     encrypt u8 (decrypt u8 (5, 6) [1, 2] 2) [1, 2] 2 = (5, 6) ∧
     Set.BijOn (fun p => encrypt u8 p [1, 2] 2) (blockSpace u8) (blockSpace u8)) :=
  ⟨by decide, c1_round_trip_bijection u8 (Or.inl rfl) [1, 2] 2 (3, 4) (5, 6)
    (by decide) (by decide) (by decide) (by decide)⟩

set_option maxRecDepth 100000 in
/-- Claim C2: the RC5-32/12/16 known-answer vector: key `00..0F`, plaintext
`[0x33221100, 0x77665544]`, ciphertext `[0x9B14DC2D, 0x9E8B08CF]`. -/
theorem c2_known_answer_32_12_16 :
    encrypt u32 (0x33221100, 0x77665544)
      [0x00, 0x01, 0x02, 0x03, 0x04, 0x05, 0x06, 0x07, 0x08, 0x09, 0x0A, 0x0B,
       0x0C, 0x0D, 0x0E, 0x0F] 12 = (0x9B14DC2D, 0x9E8B08CF) := by
  decide

theorem rot_mask_eq_mod (wt : WordType) {k : Nat} (hk : wbits wt = 2 ^ k)
    (y : Nat) : y &&& (wbits wt - 1) = y % wbits wt := by
  rw [hk]
  exact Nat.and_pow_two_sub_one_eq_mod y k

theorem wbits_eq_pow (wt : WordType)
    (hwt : wt = u8 ∨ wt = u16 ∨ wt = u32 ∨ wt = u64 ∨ wt = u128) :
    ∃ k, wbits wt = 2 ^ k := by
  rcases hwt with h | h | h | h | h <;> subst h
  · exact ⟨3, rfl⟩
  · exact ⟨4, rfl⟩
  · exact ⟨5, rfl⟩
  · exact ⟨6, rfl⟩
  · exact ⟨7, rfl⟩

theorem rotl_amount_mod (wt : WordType) {k : Nat} (hk : wbits wt = 2 ^ k)
    (x y : Nat) : rotl wt x (y % wbits wt) = rotl wt x y := by
  unfold rotl
  rw [rot_mask_eq_mod wt hk, rot_mask_eq_mod wt hk, Nat.mod_mod]

theorem rotr_amount_mod (wt : WordType) {k : Nat} (hk : wbits wt = 2 ^ k)
    (x y : Nat) : rotr wt x (y % wbits wt) = rotr wt x y := by
  unfold rotr
  rw [rot_mask_eq_mod wt hk, rot_mask_eq_mod wt hk, Nat.mod_mod]

/-- Claim C4: for supported widths, `rotr (rotl x y) y = x`; rotating by any
multiple of `w` (amount `≡ 0 mod w`) is the identity; and the rotation amount
is reduced modulo `w` before use. -/
theorem c4_rotation_laws (wt : WordType)
    (hwt : wt = u8 ∨ wt = u16 ∨ wt = u32 ∨ wt = u64 ∨ wt = u128)
    (x y : Nat) (hx : x < M wt) :
    rotr wt (rotl wt x y) y = x ∧
    (y % wbits wt = 0 → rotl wt x y = x ∧ rotr wt x y = x) ∧
    rotl wt x y = rotl wt x (y % wbits wt) ∧
    rotr wt x y = rotr wt x (y % wbits wt) := by
  obtain ⟨k, hk⟩ := wbits_eq_pow wt hwt
  refine ⟨rotr_rotl wt y hx, ?_, (rotl_amount_mod wt hk x y).symm,
    (rotr_amount_mod wt hk x y).symm⟩
  intro h0
  constructor
  · unfold rotl
    rw [rot_mask_eq_mod wt hk, h0]
    simp
  · unfold rotr
    rw [rot_mask_eq_mod wt hk, h0]
    simp

/-- Witness for C4 at `w = 8`, `x = 0x77`, `y = 11`. -/
theorem c4_rotation_laws_witness :
    ((0x77 : Nat) < M u8) ∧
    (rotr u8 (rotl u8 0x77 11) 11 = 0x77 ∧
     (11 % wbits u8 = 0 → rotl u8 0x77 11 = 0x77 ∧ rotr u8 0x77 11 = 0x77) ∧
     rotl u8 0x77 11 = rotl u8 0x77 (11 % wbits u8) ∧
     rotr u8 0x77 11 = rotr u8 0x77 (11 % wbits u8)) :=
  ⟨by decide, c4_rotation_laws u8 (Or.inl rfl) 0x77 11 (by decide)⟩

/-- Claim C5: `expand_key` always returns a subkey table of the valid even
size `T = 2 * (rounds + 1) ≥ 2`; the `BadLength` branch is unreachable, so on
every input the result is a table of valid size. -/
theorem c5_table_size (wt : WordType)
    (hwt : wt = u8 ∨ wt = u16 ∨ wt = u32 ∨ wt = u64 ∨ wt = u128)
    (key : List Nat) (rounds : Nat) :
    (expand_key wt key rounds).length = 2 * (rounds + 1) ∧
    Even (2 * (rounds + 1)) ∧ 2 ≤ 2 * (rounds + 1) :=
  ⟨expand_key_length wt key rounds, ⟨rounds + 1, by ring⟩, by omega⟩

/-- Witness for C5 at `w = 8`, `key = [7]`, `rounds = 1`. -/
theorem c5_table_size_witness :
    (expand_key u8 [7] 1).length = 2 * (1 + 1) ∧
    Even (2 * (1 + 1)) ∧ 2 ≤ 2 * (1 + 1) :=
  c5_table_size u8 (Or.inl rfl) [7] 1

/-- Claim C8: with `r = 0` the subkey table has exactly 2 entries and
encrypt reduces to `[A0 + S[0], B0 + S[1]]` with no mixing rounds. -/
theorem c8_zero_rounds (wt : WordType)
    (hwt : wt = u8 ∨ wt = u16 ∨ wt = u32 ∨ wt = u64 ∨ wt = u128)
    (key : List Nat) (pt : Nat × Nat) :
    (expand_key wt key 0).length = 2 ∧
    encrypt wt pt key 0 =
      (wadd wt pt.1 ((expand_key wt key 0).getD 0 0),
       wadd wt pt.2 ((expand_key wt key 0).getD 1 0)) := by
  refine ⟨expand_key_length wt key 0, ?_⟩
  simp only [encrypt, List.range'_zero, List.foldl_nil]

/-- Witness for C8 at `w = 8`, `key = [1, 2, 3]`, `pt = (200, 201)`. -/
theorem c8_zero_rounds_witness :
    (expand_key u8 [1, 2, 3] 0).length = 2 ∧
    encrypt u8 (200, 201) [1, 2, 3] 0 =
      (wadd u8 200 ((expand_key u8 [1, 2, 3] 0).getD 0 0),
       wadd u8 201 ((expand_key u8 [1, 2, 3] 0).getD 1 0)) :=
  c8_zero_rounds u8 (Or.inl rfl) [1, 2, 3] (200, 201)

/-- Claim C9: the magic constants of the five supported widths are the
canonical bit-exact RC5 values, and all of them are odd. -/
theorem c9_magic_constants :
    (u8.P = 0xB7 ∧ u16.P = 0xB7E1 ∧ u32.P = 0xB7E15163 ∧
     u64.P = 0xB7E151628AED2A6B ∧ u128.P = 0xB7E151628AED2A6ABF7158809CF4F3C7) ∧
    (u8.Q = 0x9F ∧ u16.Q = 0x9E37 ∧ u32.Q = 0x9E3779B9 ∧
     u64.Q = 0x9E3779B97F4A7C15 ∧ u128.Q = 0x9E3779B97F4A7C15F39CC0605CEDC835) ∧
    (Odd u8.P ∧ Odd u16.P ∧ Odd u32.P ∧ Odd u64.P ∧ Odd u128.P) ∧
    (Odd u8.Q ∧ Odd u16.Q ∧ Odd u32.Q ∧ Odd u64.Q ∧ Odd u128.Q) := by
  decide

/-! ### The key schedule against the reference algorithm (claim C3) -/

/-- Little-endian base-256 value of a byte list (each entry a `u8`). -/
def leValue : List Nat → Nat
  | [] => 0
  | x :: rest => x % 256 + 256 * leValue rest

/-- One byte folded into a word accumulator, as one step of the packing
loop does it: shift the accumulator left by 8 and add the byte. -/
def packByte (wt : WordType) (x acc : Nat) : Nat :=
  wadd wt (wshl wt acc 8) (x % 256)

/-- The key schedule as the claim's reference algorithm states it: the key
bytes are packed little-endian into `c` words `L`; `S[0] = P` and
`S[i] = S[i-1] + Q`; then the same `3 * max c T` mixing iterations. -/
def expandKeySpec (wt : WordType) (key : List Nat) (rounds : Nat) : List Nat :=
  let t := 2 * (rounds + 1)
  let c := keyWords wt key.length
  let keyL := fun ix => leValue ((key.drop (wt.BYTES * ix)).take wt.BYTES) % M wt
  let st : MixState := ⟨sInit wt, keyL, 0, 0, 0, 0⟩
  let fin := (mixStep wt t c)^[3 * max c t] st
  (List.range t).map fin.S

theorem updFn_same (f : Nat → Nat) (i v : Nat) : updFn f i v i = v := by
  simp [updFn]

theorem updFn_other (f : Nat → Nat) {i k : Nat} (v : Nat) (h : k ≠ i) :
    updFn f i v k = f k := by
  simp [updFn, h]

theorem take_succ_getD {α : Type} (key : List α) (d : α) {m : Nat}
    (hm : m < key.length) : key.take (m + 1) = key.take m ++ [key.getD m d] := by
  rw [List.take_succ, List.getD_eq_getElem?_getD, List.getElem?_eq_getElem hm]
  rfl

/-- Appending byte `m` to the first `m` bytes extends exactly the chunk of
the word slot `m / u` and leaves room for it. -/
theorem chunk_concat {α : Type} (key : List α) (d : α) {u m : Nat} (hu : 1 ≤ u)
    (hm : m < key.length) :
    ((key.take (m + 1)).drop (u * (m / u))).take u =
      (((key.take m).drop (u * (m / u))).take u) ++ [key.getD m d] := by
  have h1 : u * (m / u) ≤ m := by
    rw [Nat.mul_comm]; exact Nat.div_mul_le_self m u
  have hdm := Nat.div_add_mod m u
  have hmod : m % u < u := Nat.mod_lt _ (by omega)
  have hlen : ((key.take m).drop (u * (m / u))).length = m - u * (m / u) := by
    rw [List.length_drop, List.length_take]
    omega
  have htake1 : ((key.take m).drop (u * (m / u)) ++ [key.getD m d]).take u =
      (key.take m).drop (u * (m / u)) ++ [key.getD m d] :=
    List.take_of_length_le (by
      rw [List.length_append, hlen]
      simp only [List.length_cons, List.length_nil]
      omega)
  have htake2 : ((key.take m).drop (u * (m / u))).take u =
      (key.take m).drop (u * (m / u)) :=
    List.take_of_length_le (by rw [hlen]; omega)
  rw [take_succ_getD key d hm,
    List.drop_append_of_le_length (by rw [List.length_take]; omega),
    htake1, htake2]

/-- Appending byte `m` to the first `m` bytes leaves every other word slot's
chunk unchanged. -/
theorem chunk_stable {α : Type} (key : List α) (d : α) {u m ix : Nat} (hu : 1 ≤ u)
    (hm : m < key.length) (hix : ix ≠ m / u) :
    ((key.take (m + 1)).drop (u * ix)).take u =
      ((key.take m).drop (u * ix)).take u := by
  rw [take_succ_getD key d hm]
  by_cases hle : u * ix ≤ m
  · have hlt : ix < m / u := by
      have hix2 : ix ≤ m / u :=
        (Nat.le_div_iff_mul_le (by omega)).mpr (by rw [Nat.mul_comm]; exact hle)
      omega
    have hplus : u * ix + u ≤ m := by
      have hmul : u * (ix + 1) ≤ u * (m / u) := Nat.mul_le_mul_left u hlt
      have hsmul : u * (ix + 1) = u * ix + u := Nat.mul_succ u ix
      have hdiv : u * (m / u) ≤ m := by
        rw [Nat.mul_comm]; exact Nat.div_mul_le_self m u
      omega
    rw [List.drop_append_of_le_length (by rw [List.length_take]; omega),
      List.take_append_of_le_length
        (by rw [List.length_drop, List.length_take]; omega)]
  · have hd1 : (key.take m ++ [key.getD m d]).drop (u * ix) = [] :=
      List.drop_eq_nil_of_le (by
        rw [List.length_append, List.length_take]
        simp only [List.length_cons, List.length_nil]
        omega)
    have hd2 : (key.take m).drop (u * ix) = [] :=
      List.drop_eq_nil_of_le (by rw [List.length_take]; omega)
    rw [hd1, hd2]

/-- The packing loop computes, in every word slot, the fold of that slot's
bytes over the slot's previous contents. -/
theorem packLoop_eq_foldr (wt : WordType) (hu : 1 ≤ wt.BYTES) (key : List Nat) :
    ∀ (m : Nat), m ≤ key.length → ∀ (L : Nat → Nat) (ix : Nat),
      packLoop wt key m L ix =
        List.foldr (packByte wt) (L ix)
          (((key.take m).drop (wt.BYTES * ix)).take wt.BYTES) := by
  intro m
  induction m with
  | zero => intro _ L ix; simp [packLoop]
  | succ m ih =>
      intro hm L ix
      have hmlen : m < key.length := hm
      show packLoop wt key m
        (updFn L (m / wt.BYTES)
          (packByte wt (key.getD m 0) (L (m / wt.BYTES)))) ix = _
      rw [ih (Nat.le_of_lt hmlen) _ ix]
      by_cases hix : ix = m / wt.BYTES
      · subst hix
        rw [updFn_same, chunk_concat key 0 hu hmlen, List.foldr_append]
        rfl
      · rw [updFn_other _ _ hix, chunk_stable key 0 hu hmlen hix]

/-- In a one-byte word, folding at most one byte is its little-endian value
modulo `2 ^ 8`; in wider words the fold is the little-endian value modulo
`2 ^ w` for any number of bytes. -/
theorem foldr_packByte_two_le (wt : WordType) (h2 : 2 ≤ wt.BYTES) :
    ∀ (bs : List Nat), List.foldr (packByte wt) 0 bs = leValue bs % M wt := by
  have h8 : 8 % wbits wt = 8 := Nat.mod_eq_of_lt (by unfold wbits; omega)
  intro bs
  induction bs with
  | nil => simp [leValue]
  | cons x rest ih =>
      show packByte wt x (List.foldr (packByte wt) 0 rest) = leValue (x :: rest) % M wt
      rw [ih]
      show wadd wt (wshl wt (leValue rest % M wt) 8) (x % 256) = _
      rw [show leValue (x :: rest) = x % 256 + 256 * leValue rest from rfl]
      unfold wadd wshl
      rw [h8, Nat.shiftLeft_eq, show (2 : Nat) ^ 8 = 256 from rfl,
        Nat.mod_mul_mod, Nat.mod_add_mod, Nat.add_comm, Nat.mul_comm]

theorem foldr_packByte_eq_leValue (wt : WordType) (hu : 1 ≤ wt.BYTES)
    (bs : List Nat) (hbs : bs.length ≤ wt.BYTES) :
    List.foldr (packByte wt) 0 bs = leValue bs % M wt := by
  rcases Nat.lt_or_ge wt.BYTES 2 with h2 | h2
  · have h1 : wt.BYTES = 1 := by omega
    match bs, hbs with
    | [], _ => simp [leValue]
    | [x], _ =>
        show packByte wt x 0 = leValue [x] % M wt
        unfold packByte wadd wshl leValue M wbits
        rw [h1]
        norm_num
    | x :: y :: rest, hbs => rw [h1] at hbs; simp at hbs
  · exact foldr_packByte_two_le wt h2 bs

/-- The packing loop of `expand_key`, started from the all-zero array and run
over the whole key, packs the key bytes little-endian into the word slots. -/
theorem packLoop_eq_leValue (wt : WordType) (hu : 1 ≤ wt.BYTES) (key : List Nat) :
    packLoop wt key key.length (fun _ => 0) =
      fun ix => leValue ((key.drop (wt.BYTES * ix)).take wt.BYTES) % M wt := by
  funext ix
  rw [packLoop_eq_foldr wt hu key key.length (Nat.le_refl _) _ ix, List.take_length]
  exact foldr_packByte_eq_leValue wt hu _
    (by rw [List.length_take]; exact Nat.min_le_left _ _)

/-- Claim C3: for every supported width, key and round count, `expand_key`
computes exactly the reference algorithm's table: little-endian key packing
into `c = max 1 (ceil (8b/w))` words, `S` seeded by `P` and `Q`, and
`3 * max c T` mixing iterations in the stated order. -/
theorem c3_expand_key_reference (wt : WordType)
    (hwt : wt = u8 ∨ wt = u16 ∨ wt = u32 ∨ wt = u64 ∨ wt = u128)
    (key : List Nat) (rounds : Nat) :
    expand_key wt key rounds = expandKeySpec wt key rounds := by
  have hu : 1 ≤ wt.BYTES := by
    rcases hwt with h | h | h | h | h <;> subst h <;> decide
  simp only [expand_key, expandKeySpec]
  rw [packLoop_eq_leValue wt hu key]

/-- Witness for C3 at `w = 32`, `key = [1, 2, 3, 4, 5]`, `rounds = 1`. -/
theorem c3_expand_key_reference_witness :
    expand_key u32 [1, 2, 3, 4, 5] 1 = expandKeySpec u32 [1, 2, 3, 4, 5] 1 :=
  c3_expand_key_reference u32 (Or.inr (Or.inr (Or.inl rfl))) [1, 2, 3, 4, 5] 1

/-! ### Little-endian byte conversion (claim C6) -/

/-- `to_le_bytes` from `src/unsigned.rs`: the Rust primitive `to_le_bytes`
followed by `to_vec` — exactly `BYTES` little-endian bytes. -/
def to_le_bytes (wt : WordType) (a : Nat) : List Nat :=
  (List.range wt.BYTES).map (fun k => a / 256 ^ k % 256)

/-- Modelled from the spec: the fallible little-endian conversion
`from_le_bytes` of the historical revision is missing from `src/` (its
caller `src/lib.rs` unwraps its result, and `src/rc5.rs` declares the
`ConversionError` variant for it, but only the infallible fixed-array
version survives in `src/unsigned.rs`). Per the spec it fails with
`ConversionError` when the supplied byte-slice length is not `w/8`, and
otherwise returns the little-endian interpretation of the bytes. -/
def from_le_bytes (wt : WordType) (bs : List Nat) : Except Error Nat :=
  if bs.length = wt.BYTES then Except.ok (leValue bs)
  else Except.error Error.ConversionError

/-- Claim C6: the little-endian conversion fails with `ConversionError`
exactly when the byte-slice length differs from `w/8`, succeeds with the
little-endian value on exact input, and `to_le_bytes` always produces
exactly `w/8` bytes. -/
theorem c6_le_conversion (wt : WordType)
    (hwt : wt = u8 ∨ wt = u16 ∨ wt = u32 ∨ wt = u64 ∨ wt = u128)
    (bs : List Nat) (a : Nat) :
    (bs.length ≠ wt.BYTES →
      from_le_bytes wt bs = Except.error Error.ConversionError) ∧
    (bs.length = wt.BYTES → from_le_bytes wt bs = Except.ok (leValue bs)) ∧
    (to_le_bytes wt a).length = wt.BYTES := by
  refine ⟨fun h => ?_, fun h => ?_, ?_⟩
  · unfold from_le_bytes
    rw [if_neg h]
  · unfold from_le_bytes
    rw [if_pos h]
  · unfold to_le_bytes
    rw [List.length_map, List.length_range]

/-- Witness for C6 at `w = 32`, `bs = [1, 2, 3, 4]`, `a = 77777`. -/
theorem c6_le_conversion_witness :
    (([1, 2, 3, 4] : List Nat).length ≠ u32.BYTES →
      from_le_bytes u32 [1, 2, 3, 4] = Except.error Error.ConversionError) ∧
    (([1, 2, 3, 4] : List Nat).length = u32.BYTES →
      from_le_bytes u32 [1, 2, 3, 4] = Except.ok (leValue [1, 2, 3, 4])) ∧
    (to_le_bytes u32 77777).length = u32.BYTES :=
  c6_le_conversion u32 (Or.inr (Or.inr (Or.inl rfl))) [1, 2, 3, 4] 77777

/-! ### The historical revision `src/lib.rs` / `src/unsigned.rs` -/

namespace Lib

/-- The `rotl!` macro of `src/lib.rs` under Rust release semantics:
`(a << (b & (BITS-1))) | (a >> (BITS - (b & (BITS-1))))`, where an
overflowing shift amount (the right shift becomes `BITS` when the mask is
zero) wraps around modulo the bit width. -/
def rotl (wt : WordType) (x y : Nat) : Nat :=
  ((x <<< (y &&& (wbits wt - 1))) % M wt) |||
    (x >>> ((wbits wt - (y &&& (wbits wt - 1))) % wbits wt))

/-- The `rotr!` macro of `src/lib.rs` under Rust release semantics. -/
def rotr (wt : WordType) (x y : Nat) : Nat :=
  (x >>> (y &&& (wbits wt - 1))) |||
    ((x <<< ((wbits wt - (y &&& (wbits wt - 1))) % wbits wt)) % M wt)

/-- One iteration of the key-mixing loop of `expand_key` in `src/lib.rs`:
identical to the current revision's, with the `rotl!` macro and plain `+`
(wrapping in release builds). -/
def mixStep (wt : WordType) (t c : Nat) (st : MixState) : MixState :=
  let s := Lib.rotl wt (wadd wt (st.S st.i) (wadd wt st.a st.b)) 3
  let S := updFn st.S st.i s
  let a := s
  let l := Lib.rotl wt (wadd wt (st.L st.j) (wadd wt a st.b)) (wadd wt a st.b)
  let L := updFn st.L st.j l
  let b := l
  ⟨S, L, (st.i + 1) % t, (st.j + 1) % c, a, b⟩

/-- `expand_key::<W, T>` from `src/lib.rs` (historical revision). The
packing-loop bound `(0..=(b-1)).rev()` evaluates `b - 1` in `usize`: for an
empty key this underflows, so the call panics (overflow panic in debug; in
release the wrapped bound drives an out-of-bounds index), modelled as
`none`. The count `c` is computed in `u32` (`as u32 / BITSU32`), hence the
`% 2 ^ 32`. The packing loop body (`(key_l[ix] << 8) + key[i]`, shifts and
adds wrapping in release) is the same as the current revision's, so
`packLoop` is shared; so is the `S` recurrence. -/
def expand_key (wt : WordType) (T : Nat) (key : List Nat) : Option (List Nat) :=
  if key.length = 0 then none
  else
    let b := key.length
    let c := max 1 (((8 * b + (wbits wt - 1)) % 2 ^ 32) / wbits wt)
    let keyL := packLoop wt key b (fun _ => 0)
    let st : MixState := ⟨sInit wt, keyL, 0, 0, 0, 0⟩
    let fin := (Lib.mixStep wt T c)^[3 * max c T] st
    some ((List.range T).map fin.S)

/-- One iteration of the `encode` round loop of `src/lib.rs`:
`a = rotl!(a^b, b) + key_exp[2*i]; b = rotl!(b^a, a) + key_exp[2*i+1]`
(`+` wrapping in release builds). -/
def encRound (wt : WordType) (S : List Nat) (ab : Nat × Nat) (i : Nat) :
    Nat × Nat :=
  let a := wadd wt (Lib.rotl wt (ab.1 ^^^ ab.2) ab.2) (S.getD (2 * i) 0)
  let b := wadd wt (Lib.rotl wt (ab.2 ^^^ a) a) (S.getD (2 * i + 1) 0)
  (a, b)

/-- One iteration of the `decode` round loop of `src/lib.rs`:
`b = rotr!(b - key_exp[2*i+1], a) ^ a; a = rotr!(a - key_exp[2*i], b) ^ b`
(`-` wrapping in release builds). -/
def decRound (wt : WordType) (S : List Nat) (ab : Nat × Nat) (i : Nat) :
    Nat × Nat :=
  let b := Lib.rotr wt (wsub wt ab.2 (S.getD (2 * i + 1) 0)) ab.1 ^^^ ab.1
  let a := Lib.rotr wt (wsub wt ab.1 (S.getD (2 * i) 0)) b ^^^ b
  (a, b)

/-- `encode::<W, T>` from `src/lib.rs`: the two words are read little-endian
from `pt[0..BYTES]` and `pt[BYTES..2*BYTES]` (`pt` must hold at least
`2*BYTES` bytes or Rust panics on the slice), `r = T/2 - 1` rounds are run,
and the two result words are emitted as little-endian bytes. -/
def encode (wt : WordType) (T : Nat) (key pt : List Nat) : Option (List Nat) :=
  (Lib.expand_key wt T key).map (fun S =>
    let r := T / 2 - 1
    let a := wadd wt (leValue (pt.take wt.BYTES)) (S.getD 0 0)
    let b := wadd wt (leValue ((pt.drop wt.BYTES).take wt.BYTES)) (S.getD 1 0)
    let ab := (List.range' 1 r).foldl (Lib.encRound wt S) (a, b)
    to_le_bytes wt ab.1 ++ to_le_bytes wt ab.2)

/-- `decode::<W, T>` from `src/lib.rs`. -/
def decode (wt : WordType) (T : Nat) (key ct : List Nat) : Option (List Nat) :=
  (Lib.expand_key wt T key).map (fun S =>
    let r := T / 2 - 1
    let a := leValue (ct.take wt.BYTES)
    let b := leValue ((ct.drop wt.BYTES).take wt.BYTES)
    let ab := ((List.range' 1 r).reverse).foldl (Lib.decRound wt S) (a, b)
    to_le_bytes wt (wsub wt ab.1 (S.getD 0 0)) ++
      to_le_bytes wt (wsub wt ab.2 (S.getD 1 0)))

end Lib

namespace Lib

theorem rotl_eq (wt : WordType) {x : Nat} (y : Nat) (hx : x < M wt) :
    Lib.rotl wt x y = RC5.rotl wt x y := by
  by_cases hne : y &&& (wbits wt - 1) = 0
  · unfold Lib.rotl RC5.rotl
    rw [if_pos hne, hne, Nat.sub_zero, Nat.mod_self, Nat.shiftLeft_zero,
      Nat.shiftRight_zero, Nat.mod_eq_of_lt hx, Nat.or_self]
  · have haw := rot_amount_lt hne
    have ha1 : 0 < y &&& (wbits wt - 1) := Nat.pos_of_ne_zero hne
    unfold Lib.rotl RC5.rotl
    rw [if_neg hne, Nat.mod_eq_of_lt
      (show wbits wt - (y &&& (wbits wt - 1)) < wbits wt by omega)]

theorem rotr_eq (wt : WordType) {x : Nat} (y : Nat) (hx : x < M wt) :
    Lib.rotr wt x y = RC5.rotr wt x y := by
  by_cases hne : y &&& (wbits wt - 1) = 0
  · unfold Lib.rotr RC5.rotr
    rw [if_pos hne, hne, Nat.sub_zero, Nat.mod_self, Nat.shiftLeft_zero,
      Nat.shiftRight_zero, Nat.mod_eq_of_lt hx, Nat.or_self]
  · have haw := rot_amount_lt hne
    have ha1 : 0 < y &&& (wbits wt - 1) := Nat.pos_of_ne_zero hne
    unfold Lib.rotr RC5.rotr
    rw [if_neg hne, Nat.mod_eq_of_lt
      (show wbits wt - (y &&& (wbits wt - 1)) < wbits wt by omega)]

theorem mixStep_eq (wt : WordType) (t c : Nat) :
    Lib.mixStep wt t c = RC5.mixStep wt t c := by
  funext st
  simp only [Lib.mixStep, RC5.mixStep]
  rw [rotl_eq wt 3 (wadd_lt _ _ _), rotl_eq wt _ (wadd_lt _ _ _)]

theorem encRound_eq (wt : WordType) (S : List Nat) (i : Nat) {ab : Nat × Nat}
    (h1 : ab.1 < M wt) (h2 : ab.2 < M wt) :
    Lib.encRound wt S ab i = RC5.encRound wt S ab i := by
  simp only [Lib.encRound, RC5.encRound]
  rw [rotl_eq wt ab.2 (xor_lt wt h1 h2),
    rotl_eq wt _ (xor_lt wt h2 (wadd_lt _ _ _))]

theorem decRound_eq (wt : WordType) (S : List Nat) :
    Lib.decRound wt S = RC5.decRound wt S := by
  funext ab i
  simp only [Lib.decRound, RC5.decRound]
  rw [rotr_eq wt ab.1 (wsub_lt _ _ _), rotr_eq wt _ (wsub_lt _ _ _)]

/-- The historical `expand_key` computes the current revision's table when
the key is non-empty and the `u32` cast of `8*b + w - 1` is lossless. -/
theorem expand_key_eq (wt : WordType) (key : List Nat) (rounds : Nat)
    (hb1 : 1 ≤ key.length)
    (hsmall : 8 * key.length + (wbits wt - 1) < 2 ^ 32) :
    Lib.expand_key wt (2 * (rounds + 1)) key =
      some (RC5.expand_key wt key rounds) := by
  simp only [Lib.expand_key, RC5.expand_key, keyWords]
  rw [if_neg (show ¬key.length = 0 by omega), Nat.mod_eq_of_lt hsmall,
    mixStep_eq]

end Lib

theorem foldl_congr_inv {β : Type} {f g : (Nat × Nat) → β → (Nat × Nat)}
    {P : (Nat × Nat) → Prop}
    (hfg : ∀ ab b, P ab → f ab b = g ab b)
    (hP : ∀ ab b, P ab → P (g ab b)) :
    ∀ (l : List β) (ab), P ab → l.foldl f ab = l.foldl g ab := by
  intro l
  induction l with
  | nil => intro ab _; rfl
  | cons x xs ih =>
      intro ab hab
      rw [List.foldl_cons, List.foldl_cons, hfg ab x hab]
      exact ih _ (hP ab x hab)

/-- The schedule computed from an empty key: `c = 1`, `L = [ZERO]`, derived
solely from the magic constants `P` and `Q`. -/
def emptyKeySchedule (wt : WordType) (rounds : Nat) : List Nat :=
  let t := 2 * (rounds + 1)
  let st : MixState := ⟨sInit wt, fun _ => 0, 0, 0, 0, 0⟩
  let fin := (mixStep wt t 1)^[3 * max 1 t] st
  (List.range t).map fin.S

/-- Claim C7: with an empty key the current revision's key schedule computes
`c = 1`, packs the key as the single zero word, and returns the schedule
derived solely from the magic constants; the historical `src/lib.rs`
`expand_key`, by contrast, panics on an empty key (the loop bound `b - 1`
underflows), modelled as `none`. -/
theorem c7_empty_key (wt : WordType)
    (hwt : wt = u8 ∨ wt = u16 ∨ wt = u32 ∨ wt = u64 ∨ wt = u128)
    (rounds : Nat) :
    keyWords wt 0 = 1 ∧
    expand_key wt [] rounds = emptyKeySchedule wt rounds ∧
    Lib.expand_key wt (2 * (rounds + 1)) [] = none := by
  have hc : keyWords wt 0 = 1 := by
    rcases hwt with h | h | h | h | h <;> subst h <;> decide
  refine ⟨hc, ?_, rfl⟩
  simp only [expand_key, emptyKeySchedule, List.length_nil, packLoop, hc]

/-- Witness for C7 at `w = 8`, `rounds = 0`. -/
theorem c7_empty_key_witness :
    keyWords u8 0 = 1 ∧
    expand_key u8 [] 0 = emptyKeySchedule u8 0 ∧
    Lib.expand_key u8 (2 * (0 + 1)) [] = none :=
  c7_empty_key u8 (Or.inl rfl) 0

/-- Claim C10: the historical `encode`/`decode` of `src/lib.rs` compute the
same cipher as the current `encrypt`/`decrypt` of `src/rc5.rs`: for every
supported width, even `T ≥ 2`, non-empty key (keys have length at most 255
per the data model) and block of exactly `2*(w/8)` bytes, `encode` is the
little-endian byte encoding of `encrypt` at `r = T/2 - 1` on the
little-endian words of the input, and `decode` likewise of `decrypt`. -/
theorem c10_encode_decode_refinement (wt : WordType)
    (hwt : wt = u8 ∨ wt = u16 ∨ wt = u32 ∨ wt = u64 ∨ wt = u128)
    (T : Nat) (hT2 : 2 ≤ T) (hTe : Even T)
    (key pt ct : List Nat) (hb1 : 1 ≤ key.length) (hb2 : key.length ≤ 255)
    (hpt : pt.length = 2 * wt.BYTES) (hct : ct.length = 2 * wt.BYTES) :
    Lib.encode wt T key pt = some
      (to_le_bytes wt ((encrypt wt (leValue (pt.take wt.BYTES),
          leValue ((pt.drop wt.BYTES).take wt.BYTES)) key (T / 2 - 1)).1) ++
       to_le_bytes wt ((encrypt wt (leValue (pt.take wt.BYTES),
          leValue ((pt.drop wt.BYTES).take wt.BYTES)) key (T / 2 - 1)).2)) ∧
    Lib.decode wt T key ct = some
      (to_le_bytes wt ((decrypt wt (leValue (ct.take wt.BYTES),
          leValue ((ct.drop wt.BYTES).take wt.BYTES)) key (T / 2 - 1)).1) ++
       to_le_bytes wt ((decrypt wt (leValue (ct.take wt.BYTES),
          leValue ((ct.drop wt.BYTES).take wt.BYTES)) key (T / 2 - 1)).2)) := by
  have hwsmall : wbits wt ≤ 128 := by
    rcases hwt with h | h | h | h | h <;> subst h <;> decide
  have hsmall : 8 * key.length + (wbits wt - 1) < 2 ^ 32 := by
    have : (2167 : Nat) < 2 ^ 32 := by decide
    omega
  have hTr : 2 * ((T / 2 - 1) + 1) = T := by
    obtain ⟨k, hk⟩ := hTe
    omega
  have hS := Lib.expand_key_eq wt key (T / 2 - 1) hb1 hsmall
  rw [hTr] at hS
  constructor
  · unfold Lib.encode
    rw [hS]
    simp only [Option.map_some', Option.some.injEq]
    have hfold := foldl_congr_inv
      (f := Lib.encRound wt (expand_key wt key (T / 2 - 1)))
      (g := encRound wt (expand_key wt key (T / 2 - 1)))
      (P := fun ab => ab.1 < M wt ∧ ab.2 < M wt)
      (fun ab i hab => Lib.encRound_eq wt _ i hab.1 hab.2)
      (fun ab i _ => encRound_lt wt _ ab i)
      (List.range' 1 (T / 2 - 1))
      (wadd wt (leValue (pt.take wt.BYTES))
          ((expand_key wt key (T / 2 - 1)).getD 0 0),
        wadd wt (leValue ((pt.drop wt.BYTES).take wt.BYTES))
          ((expand_key wt key (T / 2 - 1)).getD 1 0))
      ⟨wadd_lt _ _ _, wadd_lt _ _ _⟩
    rw [hfold]
    rfl
  · unfold Lib.decode
    rw [hS]
    simp only [Option.map_some', Option.some.injEq, Lib.decRound_eq]
    rfl

/-- Witness for C10 at `w = 8`, `T = 4`, `key = [1, 2]`, `pt = [3, 4]`,
`ct = [5, 6]`. -/
theorem c10_encode_decode_refinement_witness :
    ((2 ≤ 4 ∧ Even 4) ∧
     (1 ≤ ([1, 2] : List Nat).length ∧ ([1, 2] : List Nat).length ≤ 255) ∧
     ([3, 4] : List Nat).length = 2 * u8.BYTES ∧
     ([5, 6] : List Nat).length = 2 * u8.BYTES) ∧
    (Lib.encode u8 4 [1, 2] [3, 4] = some
      (to_le_bytes u8 ((encrypt u8 (leValue (([3, 4] : List Nat).take u8.BYTES),
          leValue ((([3, 4] : List Nat).drop u8.BYTES).take u8.BYTES)) [1, 2]
          (4 / 2 - 1)).1) ++
       to_le_bytes u8 ((encrypt u8 (leValue (([3, 4] : List Nat).take u8.BYTES),
          leValue ((([3, 4] : List Nat).drop u8.BYTES).take u8.BYTES)) [1, 2]
          (4 / 2 - 1)).2)) ∧
     Lib.decode u8 4 [1, 2] [5, 6] = some
      (to_le_bytes u8 ((decrypt u8 (leValue (([5, 6] : List Nat).take u8.BYTES),
          leValue ((([5, 6] : List Nat).drop u8.BYTES).take u8.BYTES)) [1, 2]
          (4 / 2 - 1)).1) ++
       to_le_bytes u8 ((decrypt u8 (leValue (([5, 6] : List Nat).take u8.BYTES),
          leValue ((([5, 6] : List Nat).drop u8.BYTES).take u8.BYTES)) [1, 2]
          (4 / 2 - 1)).2))) :=
  ⟨by decide, c10_encode_decode_refinement u8 (Or.inl rfl) 4 (by decide)
    (by decide) [1, 2] [3, 4] [5, 6] (by decide) (by decide) (by decide)
    (by decide)⟩

end RC5
